import Mathlib

/-!
Verification of the marker-rewriting utility in `replace.py`.

The script reads a whole file, applies the Python substitution
`re.sub("_\\$jscoverage\\['(.*)'\\]", repl, whole_thing)` where `repl`
produces the string `_$jscoverage['<argv2>/<group1>']`, then seeks to
offset 0 and writes the result back without truncating the file.

The embedding below models strings as `List Char`.  Python regex
semantics for this particular pattern: the scanner tries the pattern at
each position from left to right; at a given position the literal
`_$jscoverage['` must match, then `(.*)` greedily captures the longest
newline-free run that is followed by the two-character literal `']`.
After a match, scanning resumes right after the matched span.
-/

namespace Replace

/-- Single-quote character (written via its code point). -/
def q : Char := Char.ofNat 39

/-- Literal part of the pattern before the capture group: the fourteen
characters of `_$jscoverage[` followed by a single quote. -/
def opener : List Char := "_$jscoverage[".toList ++ [q]

/-- Literal part of the pattern after the capture group: a single quote
followed by a closing square bracket. -/
def closer : List Char := [q, ']']

/-- Non-recursive step of the greedy matcher: combines the result of the
greedy scan on the tail with the possible matches at the head (extend
the capture through a non-newline character, or close immediately on
the two closer characters). -/
def combine (c : Char) (rest : List Char) (deeper : Option (List Char × List Char)) :
    Option (List Char × List Char) :=
  match deeper with
  | some p => if c = '\n' then none else some (c :: p.1, p.2)
  | none =>
    match rest with
    | b :: rem => if c = q ∧ b = ']' then some ([], rem) else none
    | [] => none

/-- Greedy matcher for the tail of the pattern after the opener.  On input
`s` it looks for the longest newline-free run `cap` such that `s` equals
`cap ++ closer ++ rem`, preferring the longest capture, exactly as
Python's greedy group with backtracking does for the pattern
`(.*)'\]` where the dot does not match a newline. -/
def greedyCapture : List Char → Option (List Char × List Char)
  | [] => none
  | c :: rest => combine c rest (greedyCapture rest)

/-- Attempts a match of the full pattern anchored at the start of `s`:
the literal opener must be a prefix, then the greedy capture applies to
the remainder. -/
def tryCaptureAt (s : List Char) : Option (List Char × List Char) :=
  if opener.isPrefixOf s then greedyCapture (s.drop opener.length) else none

/-- Non-recursive step of the scanner: a successful anchored match at
the current position wins; otherwise the leftmost match of the tail is
shifted by the current head character. -/
def mstep (c : Char) (here : Option (List Char × List Char))
    (deeper : Option (List Char × List Char × List Char)) :
    Option (List Char × List Char × List Char) :=
  match here with
  | some p => some ([], p.1, p.2)
  | none => deeper.map (fun t => (c :: t.1, t.2.1, t.2.2))

/-- Leftmost-match search, as Python's scanner does: try the pattern at
each position, returning the text before the match, the captured group,
and the text after the matched span. -/
def findMatch : List Char → Option (List Char × List Char × List Char)
  | [] => none
  | c :: rest => mstep c (tryCaptureAt (c :: rest)) (findMatch rest)

/-- Tests whether the head of the list is the given character. -/
def headIs (a : Char) : List Char → Bool
  | [] => false
  | c :: _ => c = a

/-- Tests whether the text contains the two-character sequence of the
closer before its first newline; the greedy capture can only extend into
text whose newline-free prefix contains such a pair. -/
def hasEarlyCloser : List Char → Bool
  | [] => false
  | c :: rest =>
    if c = '\n' then false
    else if c = q ∧ headIs ']' rest then true
    else hasEarlyCloser rest

/-- Counts the positions at which `pat` occurs as a contiguous substring
(possibly overlapping occurrences are all counted). -/
def countOccur (pat : List Char) : List Char → Nat
  | [] => 0
  | c :: rest => (if pat.isPrefixOf (c :: rest) then 1 else 0) + countOccur pat rest

/-- Fuel-indexed global substitution.  Each match `opener ++ cap ++ closer`
is replaced by `opener ++ pre ++ / ++ cap ++ closer`, mirroring the
format string in `repl` (line 9 of `replace.py`), and scanning resumes
on the remainder.  The fuel strictly exceeds the number of matches, so
`jsSub` below never exhausts it. -/
def jsSubF (pre : List Char) : Nat → List Char → List Char
  | 0, s => s
  | fuel + 1, s =>
    match findMatch s with
    | none => s
    | some (b, cap, rem) => b ++ opener ++ pre ++ '/' :: (cap ++ closer ++ jsSubF pre fuel rem)

/-- The substitution of line 18 of `replace.py`:
`re.sub("_\\$jscoverage\\['(.*)'\\]", repl, whole_thing)` with
`sys.argv[2] = pre`. -/
def jsSub (pre s : List Char) : List Char := jsSubF pre s.length s

/-- Models writing `new` into a file whose current contents are `orig`
after seeking to offset 0, without truncation (lines 19-20 of
`replace.py`): bytes of `orig` beyond the written length survive. -/
def writeAt0 (orig new : List Char) : List Char := new ++ orig.drop new.length

/-- Whole-program effect on the file contents, for a run where the
prefix argument is present: read, substitute, seek to 0, write without
truncation. -/
def runProgram (pre file : List Char) : List Char := writeAt0 file (jsSub pre file)

/-- Models `sys.argv` indexing: `Except.error ()` stands for the
`IndexError` Python raises when the index is out of range. -/
def getArg (argv : List (List Char)) (i : Nat) : Except Unit (List Char) :=
  match argv[i]? with
  | some a => Except.ok a
  | none => Except.error ()

/-- Models the callback `repl` (lines 8-9 of `replace.py`): it reads
`sys.argv[2]` only when invoked, i.e. only when a match exists, and
raises if that argument is absent. -/
def replE (argv : List (List Char)) (cap : List Char) : Except Unit (List Char) :=
  (getArg argv 2).map (fun pre => opener ++ pre ++ '/' :: (cap ++ closer))

/-- Concatenates the already-substituted pieces in front of the result
of the remaining substitution, propagating a raised error. -/
def exCat (b r : List Char) (rest : Except Unit (List Char)) : Except Unit (List Char) :=
  match rest with
  | Except.error e => Except.error e
  | Except.ok w => Except.ok (b ++ r ++ w)

/-- Fuel-indexed substitution with the fallible callback: the first
match already triggers the argument access, so a missing argument
aborts the whole substitution, as an uncaught Python exception does. -/
def jsSubFE (argv : List (List Char)) : Nat → List Char → Except Unit (List Char)
  | 0, s => Except.ok s
  | fuel + 1, s =>
    match findMatch s with
    | none => Except.ok s
    | some (b, cap, rem) =>
      match replE argv cap with
      | Except.error e => Except.error e
      | Except.ok r => exCat b r (jsSubFE argv fuel rem)

/-- Substitution step of the script with explicit argument list. -/
def jsSubE (argv : List (List Char)) (s : List Char) : Except Unit (List Char) :=
  jsSubFE argv s.length s

/-- Whole run of the script on a readable file with contents `file` and
argument vector `argv` (index 0 the script name, index 1 the path):
substitute, then seek to 0 and write without truncation; any raised
error propagates and no write happens. -/
def run (argv : List (List Char)) (file : List Char) : Except Unit (List Char) :=
  match jsSubE argv file with
  | Except.error e => Except.error e
  | Except.ok w => Except.ok (writeAt0 file w)

/-- Soundness of the greedy matcher: a successful capture decomposes the
input as capture, closer, remainder, with a newline-free capture. -/
theorem greedyCapture_sound : ∀ (s cap rem : List Char),
    greedyCapture s = some (cap, rem) → s = cap ++ closer ++ rem ∧ '\n' ∉ cap := by
  intro s
  induction s with
  | nil => intro cap rem h; simp [greedyCapture] at h
  | cons c rest ih =>
    intro cap rem h
    rw [greedyCapture] at h
    cases hg : greedyCapture rest with
    | some p =>
      obtain ⟨cap', rem'⟩ := p
      rw [hg] at h
      by_cases hc : c = '\n'
      · simp [combine, hc] at h
      · simp only [combine, if_neg hc, Option.some.injEq, Prod.mk.injEq] at h
        obtain ⟨h1, h2⟩ := h
        obtain ⟨hd, hnl⟩ := ih cap' rem' hg
        subst h1
        subst h2
        refine ⟨by rw [hd]; simp, ?_⟩
        simp only [List.mem_cons, not_or]
        exact ⟨fun he => hc he.symm, hnl⟩
    | none =>
      rw [hg] at h
      cases rest with
      | nil => simp [combine] at h
      | cons b rem2 =>
        by_cases hcb : c = q ∧ b = ']'
        · simp only [combine, if_pos hcb, Option.some.injEq, Prod.mk.injEq] at h
          obtain ⟨h1, h2⟩ := h
          subst h1
          subst h2
          obtain ⟨hc, hb⟩ := hcb
          subst hc
          subst hb
          exact ⟨rfl, by simp⟩
        · simp [combine, if_neg hcb] at h

/-- Completeness of the greedy matcher: a newline-free identifier
followed by the closer always yields a capture. -/
theorem greedyCapture_complete : ∀ (i b : List Char), '\n' ∉ i →
    (greedyCapture (i ++ closer ++ b)).isSome = true := by
  intro i
  induction i with
  | nil =>
    intro b _
    show (greedyCapture (q :: ']' :: b)).isSome = true
    rw [greedyCapture]
    cases hg : greedyCapture (']' :: b) with
    | some p => simp [combine, show q ≠ '\n' from by decide]
    | none => simp [combine]
  | cons c i' ih =>
    intro b hni
    have hc : c ≠ '\n' := fun he => hni (by rw [he]; exact List.mem_cons_self _ _)
    have hni' : '\n' ∉ i' := fun hm => hni (List.mem_cons_of_mem _ hm)
    have he : (c :: i') ++ closer ++ b = c :: (i' ++ closer ++ b) := by simp
    rw [he, greedyCapture]
    cases hg : greedyCapture (i' ++ closer ++ b) with
    | some p => simp [combine, hc]
    | none =>
      exfalso
      have hs := ih b hni'
      rw [hg] at hs
      simp at hs

/-- Text whose newline-free prefix has no closer pair admits no greedy
capture at all. -/
theorem greedyCapture_none : ∀ (s : List Char),
    hasEarlyCloser s = false → greedyCapture s = none := by
  intro s
  induction s with
  | nil => intro _; rfl
  | cons c rest ih =>
    intro h
    rw [hasEarlyCloser] at h
    rw [greedyCapture]
    by_cases hc : c = '\n'
    · cases hg : greedyCapture rest with
      | some p => simp [combine, hc]
      | none =>
        cases rest with
        | nil => simp [combine]
        | cons b rem2 =>
          have hne : ¬ (c = q ∧ b = ']') := fun hcb => by
            rw [hcb.1] at hc
            exact absurd hc (by decide)
          simp [combine, hne]
    · rw [if_neg hc] at h
      by_cases hq : c = q ∧ headIs ']' rest = true
      · rw [if_pos hq] at h
        exact absurd h (by simp)
      · rw [if_neg hq] at h
        rw [ih h]
        cases rest with
        | nil => simp [combine]
        | cons b rem2 =>
          have hne : ¬ (c = q ∧ b = ']') := fun hcb => hq ⟨hcb.1, by simp [headIs, hcb.2]⟩
          simp [combine, hne]

/-- Exact value of the greedy capture when the identifier is
newline-free and the text after the closer has no early closer pair:
the capture stops exactly at the intended closer. -/
theorem greedyCapture_exact : ∀ (i rest : List Char), '\n' ∉ i →
    hasEarlyCloser rest = false → greedyCapture (i ++ closer ++ rest) = some (i, rest) := by
  intro i
  induction i with
  | nil =>
    intro rest _ hr
    show greedyCapture (q :: ']' :: rest) = some ([], rest)
    rw [greedyCapture]
    have hnone : greedyCapture (']' :: rest) = none := by
      apply greedyCapture_none
      rw [hasEarlyCloser]
      rw [if_neg (show (']' : Char) ≠ '\n' from by decide)]
      rw [if_neg (show ¬ ((']' : Char) = q ∧ headIs ']' rest = true) from
        fun hp => absurd hp.1 (by decide))]
      exact hr
    rw [hnone]
    simp [combine]
  | cons c i' ih =>
    intro rest hni hr
    have hc : c ≠ '\n' := fun he => hni (by rw [he]; exact List.mem_cons_self _ _)
    have hni' : '\n' ∉ i' := fun hm => hni (List.mem_cons_of_mem _ hm)
    have he : (c :: i') ++ closer ++ rest = c :: (i' ++ closer ++ rest) := by simp
    rw [he, greedyCapture, ih rest hni' hr]
    simp [combine, hc]

/-- Appending anything after a text that contains a newline and no early
closer pair cannot create an early closer pair. -/
theorem hasEarlyCloser_append : ∀ (t x : List Char),
    hasEarlyCloser t = false → '\n' ∈ t → hasEarlyCloser (t ++ x) = false := by
  intro t
  induction t with
  | nil => intro x _ hm; exact absurd hm (by simp)
  | cons c t' ih =>
    intro x h hm
    show hasEarlyCloser (c :: (t' ++ x)) = false
    rw [hasEarlyCloser]
    rw [hasEarlyCloser] at h
    by_cases hc : c = '\n'
    · simp [hc]
    · rw [if_neg hc] at h ⊢
      have hm' : '\n' ∈ t' := by
        cases hm with
        | head => exact absurd rfl hc
        | tail _ hmem => exact hmem
      have ht' : t' ≠ [] := fun hemp => by
        rw [hemp] at hm'
        exact absurd hm' (by simp)
      have hhead : headIs ']' (t' ++ x) = headIs ']' t' := by
        cases t' with
        | nil => exact absurd rfl ht'
        | cons b t'' => rfl
      rw [hhead]
      by_cases hq : c = q ∧ headIs ']' t' = true
      · rw [if_pos hq] at h
        exact absurd h (by simp)
      · rw [if_neg hq] at h ⊢
        exact ih x h hm'

/-- Maximality of the greedy matcher: the capture is at least as long
as any newline-free identifier that the input can be decomposed
around, since backtracking prefers the longest capture. -/
theorem greedyCapture_ge : ∀ (i b cap rem : List Char), '\n' ∉ i →
    greedyCapture (i ++ closer ++ b) = some (cap, rem) → i.length ≤ cap.length := by
  intro i
  induction i with
  | nil => intro b cap rem _ _; simp
  | cons c i' ih =>
    intro b cap rem hni hg
    have hc : c ≠ '\n' := fun he => hni (by rw [he]; exact List.mem_cons_self _ _)
    have hni' : '\n' ∉ i' := fun hm => hni (List.mem_cons_of_mem _ hm)
    have hs : (c :: i') ++ closer ++ b = c :: (i' ++ closer ++ b) := by simp
    rw [hs, greedyCapture] at hg
    have hrest := greedyCapture_complete i' b hni'
    cases hg' : greedyCapture (i' ++ closer ++ b) with
    | none =>
      rw [hg'] at hrest
      exact absurd hrest (by simp)
    | some p =>
      obtain ⟨cap', rem'⟩ := p
      rw [hg'] at hg
      simp only [combine, if_neg hc, Option.some.injEq, Prod.mk.injEq] at hg
      obtain ⟨h1, h2⟩ := hg
      have hih := ih b cap' rem' hni' hg'
      rw [← h1]
      simp only [List.length_cons]
      omega

/-- Opener literal is nonempty. -/
theorem opener_ne_nil : opener ≠ [] := by decide

/-- Opener literal has fourteen characters. -/
theorem opener_length : opener.length = 14 := by decide

/-- Boolean prefix test agrees with the prefix relation. -/
theorem isPrefixOf_eq_true_iff {l₁ l₂ : List Char} : l₁.isPrefixOf l₂ = true ↔ l₁ <+: l₂ :=
  List.isPrefixOf_iff_prefix

/-- Every list prefix is also an infix. -/
theorem infix_of_pre {l₁ l₂ : List Char} (h : l₁ <+: l₂) : l₁ <:+: l₂ := by
  obtain ⟨t, ht⟩ := h
  exact ⟨[], t, by simpa using ht⟩

/-- Every list suffix is also an infix. -/
theorem infix_of_suf {l₁ l₂ : List Char} (h : l₁ <:+ l₂) : l₁ <:+: l₂ := by
  obtain ⟨t, ht⟩ := h
  exact ⟨t, [], by simpa using ht⟩

/-- Scanner result when the anchored attempt at the head position
succeeds. -/
theorem findMatch_eq_of_try (s : List Char) (p : List Char × List Char)
    (h : tryCaptureAt s = some p) : findMatch s = some ([], p.1, p.2) := by
  cases s with
  | nil =>
    have hn : tryCaptureAt ([] : List Char) = none := by decide
    rw [hn] at h
    exact absurd h (by simp)
  | cons c rest =>
    rw [findMatch, h]
    rfl

/-- Soundness of the scanner: a reported match decomposes the input as
text before, opener, capture, closer, remainder, with a newline-free
capture. -/
theorem findMatch_sound : ∀ (s b cap rem : List Char),
    findMatch s = some (b, cap, rem) →
    s = b ++ opener ++ cap ++ closer ++ rem ∧ '\n' ∉ cap := by
  intro s
  induction s with
  | nil => intro b cap rem h; simp [findMatch] at h
  | cons c rest ih =>
    intro b cap rem h
    rw [findMatch] at h
    cases ht : tryCaptureAt (c :: rest) with
    | some p =>
      obtain ⟨cap', rem'⟩ := p
      rw [ht] at h
      simp only [mstep, Option.some.injEq, Prod.mk.injEq] at h
      obtain ⟨h1, h2, h3⟩ := h
      subst h1
      subst h2
      subst h3
      rw [tryCaptureAt] at ht
      by_cases hp : opener.isPrefixOf (c :: rest) = true
      · rw [if_pos hp] at ht
        obtain ⟨t, htt⟩ := isPrefixOf_eq_true_iff.mp hp
        have hdrop : (c :: rest).drop opener.length = t := by
          rw [← htt]
          exact List.drop_left opener t
        rw [hdrop] at ht
        obtain ⟨hd, hnl⟩ := greedyCapture_sound t cap' rem' ht
        refine ⟨?_, hnl⟩
        rw [← htt, hd]
        simp
      · rw [if_neg hp] at ht
        exact absurd ht (by simp)
    | none =>
      rw [ht] at h
      simp only [mstep] at h
      cases hf : findMatch rest with
      | none =>
        rw [hf] at h
        exact absurd h (by simp)
      | some t =>
        obtain ⟨b', cap', rem'⟩ := t
        rw [hf] at h
        simp at h
        obtain ⟨h1, h2, h3⟩ := h
        subst h1
        subst h2
        subst h3
        obtain ⟨hd, hnl⟩ := ih b' cap' rem' hf
        refine ⟨?_, hnl⟩
        rw [hd]
        simp

/-- Sizes shrink across a match: the remainder reported by the scanner
is strictly shorter than the input. -/
theorem findMatch_rem_lt (s b cap rem : List Char)
    (h : findMatch s = some (b, cap, rem)) : rem.length < s.length := by
  obtain ⟨hd, _⟩ := findMatch_sound s b cap rem h
  rw [hd]
  simp [List.length_append, opener_length, closer]
  omega

/-- Scanner finds nothing when the opener occurs nowhere in the text. -/
theorem findMatch_none_of_no_infix (s : List Char) (h : ¬ opener <:+: s) :
    findMatch s = none := by
  cases hf : findMatch s with
  | none => rfl
  | some t =>
    exfalso
    obtain ⟨b, cap, rem⟩ := t
    obtain ⟨hd, _⟩ := findMatch_sound s b cap rem hf
    exact h ⟨b, cap ++ closer ++ rem, by rw [hd]; simp⟩

/-- Completeness of the scanner: text containing the opener, a
newline-free identifier and the closer yields a match. -/
theorem findMatch_complete : ∀ (a i b : List Char), '\n' ∉ i →
    (findMatch (a ++ opener ++ i ++ closer ++ b)).isSome = true := by
  intro a
  induction a with
  | nil =>
    intro i b hni
    have hs : ([] : List Char) ++ opener ++ i ++ closer ++ b = opener ++ (i ++ closer ++ b) := by
      simp
    rw [hs]
    have hcap := greedyCapture_complete i b hni
    cases hg : greedyCapture (i ++ closer ++ b) with
    | none =>
      rw [hg] at hcap
      exact absurd hcap (by simp)
    | some p =>
      have ht : tryCaptureAt (opener ++ (i ++ closer ++ b)) = some p := by
        rw [tryCaptureAt]
        rw [if_pos (isPrefixOf_eq_true_iff.mpr (List.prefix_append _ _))]
        rw [List.drop_left]
        exact hg
      rw [findMatch_eq_of_try _ _ ht]
      simp
  | cons c a' ih =>
    intro i b hni
    have hs : (c :: a') ++ opener ++ i ++ closer ++ b
        = c :: (a' ++ opener ++ i ++ closer ++ b) := by simp
    rw [hs]
    cases ht : tryCaptureAt (c :: (a' ++ opener ++ i ++ closer ++ b)) with
    | some p => rw [findMatch_eq_of_try _ _ ht]; simp
    | none =>
      rw [findMatch, ht]
      simp only [mstep]
      have hih := ih i b hni
      cases hf : findMatch (a' ++ opener ++ i ++ closer ++ b) with
      | none =>
        rw [hf] at hih
        exact absurd hih (by simp)
      | some t => simp

/-- Leftmost-match value when a region known to contain no anchored
match precedes an explicit opener: the scanner skips the region and
captures greedily right after that opener. -/
theorem findMatch_skip : ∀ (t0 u cap rem : List Char),
    ¬ opener <:+: (t0 ++ opener.dropLast) → greedyCapture u = some (cap, rem) →
    findMatch (t0 ++ opener ++ u) = some (t0, cap, rem) := by
  intro t0
  induction t0 with
  | nil =>
    intro u cap rem _ hg
    have hs : ([] : List Char) ++ opener ++ u = opener ++ u := by simp
    rw [hs]
    have ht : tryCaptureAt (opener ++ u) = some (cap, rem) := by
      rw [tryCaptureAt]
      rw [if_pos (isPrefixOf_eq_true_iff.mpr (List.prefix_append _ _))]
      rw [List.drop_left]
      exact hg
    rw [findMatch_eq_of_try _ _ ht]
  | cons c t0' ih =>
    intro u cap rem h0 hg
    have hnpp : ¬ opener <+: (c :: t0') ++ opener ++ u := by
      intro hpre
      have hop : opener.dropLast ++ [opener.getLast opener_ne_nil] = opener :=
        List.dropLast_append_getLast _
      have hpre2 : (c :: t0') ++ opener.dropLast <+: (c :: t0') ++ opener ++ u := by
        have h1 : (c :: t0') ++ opener ++ u
            = ((c :: t0') ++ opener.dropLast) ++ ([opener.getLast opener_ne_nil] ++ u) := by
          conv_lhs => rw [← hop]
          simp
        exact ⟨[opener.getLast opener_ne_nil] ++ u, h1.symm⟩
      have hlen : opener.length ≤ ((c :: t0') ++ opener.dropLast).length := by
        simp [opener_length, List.length_dropLast]
      have hpp : opener <+: (c :: t0') ++ opener.dropLast :=
        List.prefix_of_prefix_length_le hpre hpre2 hlen
      exact h0 (infix_of_pre hpp)
    have ht : tryCaptureAt ((c :: t0') ++ opener ++ u) = none := by
      rw [tryCaptureAt]
      rw [if_neg (fun hb => hnpp (isPrefixOf_eq_true_iff.mp hb))]
    have hs : (c :: t0') ++ opener ++ u = c :: (t0' ++ opener ++ u) := by simp
    rw [hs] at ht
    rw [hs, findMatch, ht]
    simp only [mstep]
    have h0' : ¬ opener <:+: (t0' ++ opener.dropLast) :=
      fun hin => h0 (List.infix_cons hin)
    rw [ih u cap rem h0' hg]
    rfl

/-- Fuel irrelevance: any fuel bounded below by the input length yields
the same substitution result. -/
theorem jsSubF_congr : ∀ (f1 f2 : Nat) (pre s : List Char),
    s.length ≤ f1 → s.length ≤ f2 → jsSubF pre f1 s = jsSubF pre f2 s := by
  intro f1
  induction f1 with
  | zero =>
    intro f2 pre s h1 _
    have hs : s = [] := List.length_eq_zero.mp (Nat.le_zero.mp h1)
    subst hs
    cases f2 with
    | zero => rfl
    | succ m => simp [jsSubF, findMatch]
  | succ k ih =>
    intro f2 pre s h1 h2
    cases f2 with
    | zero =>
      have hs : s = [] := List.length_eq_zero.mp (Nat.le_zero.mp h2)
      subst hs
      simp [jsSubF, findMatch]
    | succ m =>
      rw [jsSubF, jsSubF]
      cases hf : findMatch s with
      | none => rfl
      | some t =>
        obtain ⟨b, cap, rem⟩ := t
        have hrl : rem.length < s.length := findMatch_rem_lt s b cap rem hf
        show b ++ opener ++ pre ++ '/' :: (cap ++ closer ++ jsSubF pre k rem)
            = b ++ opener ++ pre ++ '/' :: (cap ++ closer ++ jsSubF pre m rem)
        rw [ih m pre rem (by omega) (by omega)]

/-- Unfolding equation for the substitution: either no match and the
input is returned unchanged, or the leftmost match is rewritten and the
substitution continues on the remainder. -/
theorem jsSub_eq (pre s : List Char) : jsSub pre s =
    match findMatch s with
    | none => s
    | some (b, cap, rem) => b ++ opener ++ pre ++ '/' :: (cap ++ closer ++ jsSub pre rem) := by
  rw [jsSub]
  cases s with
  | nil => simp [jsSubF, findMatch]
  | cons c rest =>
    rw [show (c :: rest).length = rest.length + 1 from rfl, jsSubF]
    cases hf : findMatch (c :: rest) with
    | none => rfl
    | some t =>
      obtain ⟨b, cap, rem⟩ := t
      have hrl : rem.length < (c :: rest).length := findMatch_rem_lt _ b cap rem hf
      show b ++ opener ++ pre ++ '/' :: (cap ++ closer ++ jsSubF pre rest.length rem)
          = b ++ opener ++ pre ++ '/' :: (cap ++ closer ++ jsSub pre rem)
      rw [jsSub, jsSubF_congr rest.length rem.length pre rem (by simp at hrl; omega) le_rfl]

/-- Substitution is the identity when the scanner finds no match. -/
theorem jsSub_of_none (pre s : List Char) (h : findMatch s = none) : jsSub pre s = s := by
  rw [jsSub_eq, h]

/-- Substitution rewrites the leftmost match and recurses on the
remainder. -/
theorem jsSub_of_some (pre s b cap rem : List Char) (h : findMatch s = some (b, cap, rem)) :
    jsSub pre s = b ++ opener ++ pre ++ '/' :: (cap ++ closer ++ jsSub pre rem) := by
  rw [jsSub_eq, h]

/-- Key single-insertion lemma: when no anchored match can start before
an explicit opener occurrence, and the opener occurs nowhere after it,
the whole effect of the substitution is to insert the prefix and a
slash right after that opener, whatever extent the greedy capture
actually takes. -/
theorem jsSub_insert (pre a u cap rem : List Char)
    (h0 : ¬ opener <:+: (a ++ opener.dropLast)) (hu : ¬ opener <:+: u)
    (hg : greedyCapture u = some (cap, rem)) :
    jsSub pre (a ++ opener ++ u) = a ++ opener ++ pre ++ '/' :: u := by
  have hf := findMatch_skip a u cap rem h0 hg
  rw [jsSub_of_some pre _ a cap rem hf]
  obtain ⟨hd, _⟩ := greedyCapture_sound u cap rem hg
  have hrem : findMatch rem = none := by
    apply findMatch_none_of_no_infix
    intro hin
    exact hu (hin.trans (infix_of_suf ⟨cap ++ closer, by rw [hd]⟩))
  rw [jsSub_of_none pre rem hrem, hd]

/-- Variant of the single-insertion lemma that takes the absence of any
match in the greedy remainder as a hypothesis, instead of deriving it
from an opener-free tail. -/
theorem jsSub_insert_of_rem (pre a u cap rem : List Char)
    (h0 : ¬ opener <:+: (a ++ opener.dropLast))
    (hg : greedyCapture u = some (cap, rem)) (hrem : findMatch rem = none) :
    jsSub pre (a ++ opener ++ u) = a ++ opener ++ pre ++ '/' :: u := by
  have hf := findMatch_skip a u cap rem h0 hg
  rw [jsSub_of_some pre _ a cap rem hf]
  obtain ⟨hd, _⟩ := greedyCapture_sound u cap rem hg
  rw [jsSub_of_none pre rem hrem, hd]

/-- The substitution never shrinks its input (bounded-fuel version). -/
theorem jsSub_ge_aux : ∀ (n : Nat) (pre s : List Char), s.length ≤ n →
    s.length ≤ (jsSub pre s).length := by
  intro n
  induction n with
  | zero =>
    intro pre s h
    have hs : s = [] := List.length_eq_zero.mp (Nat.le_zero.mp h)
    subst hs
    simp
  | succ k ih =>
    intro pre s h
    cases hf : findMatch s with
    | none => rw [jsSub_of_none pre s hf]
    | some t =>
      obtain ⟨b, cap, rem⟩ := t
      rw [jsSub_of_some pre s b cap rem hf]
      obtain ⟨hd, _⟩ := findMatch_sound s b cap rem hf
      have hrl : rem.length < s.length := findMatch_rem_lt s b cap rem hf
      have hr := ih pre rem (by omega)
      rw [hd]
      simp only [List.length_append, List.length_cons]
      omega

/-- The substitution never shrinks its input. -/
theorem jsSub_ge (pre s : List Char) : s.length ≤ (jsSub pre s).length :=
  jsSub_ge_aux s.length pre s le_rfl

/-- Identifier `foo` from the spec's one-marker scenario. -/
def fooId : List Char := ['f', 'o', 'o']

/-- Prefix `bar` from the spec's one-marker scenario. -/
def barPre : List Char := ['b', 'a', 'r']

/-- The complete marker `_$jscoverage['foo']` of the spec's one-marker
scenario. -/
def fooMarker : List Char := opener ++ fooId ++ closer

/-- Counterexample input for the one-marker claims: the text
`_$jscoverage['x] _$jscoverage['foo']`, which contains the marker
`_$jscoverage['foo']` exactly once but also an earlier occurrence of
the bare opener literal. -/
def cexInput : List Char := opener ++ ['x', ']', ' '] ++ opener ++ fooId ++ closer

/-- Two complete markers on one line: `_$jscoverage['a'] _$jscoverage['b']`. -/
def twoMarkers : List Char := opener ++ ['a'] ++ closer ++ [' '] ++ opener ++ ['b'] ++ closer

/-- Argument vector with only a script name and a file path, i.e. with
the namespace-prefix argument absent. -/
def argvShort : List (List Char) := [['r'], ['f']]

/-- Builds a text from a leading block, then for each pair an opener, a
transformed identifier, a closer and a following block. -/
def assembleWith (f : List Char → List Char) : List Char → List (List Char × List Char) → List Char
  | t0, [] => t0
  | t0, (i, t) :: ps => t0 ++ opener ++ f i ++ closer ++ assembleWith f t ps

/-- The text assembled after a block that contains a newline before any
closer pair has no early closer pair. -/
theorem hasEarlyCloser_assemble (f : List Char → List Char) (t : List Char)
    (ps : List (List Char × List Char)) (h1 : hasEarlyCloser t = false) (h2 : '\n' ∈ t) :
    hasEarlyCloser (assembleWith f t ps) = false := by
  cases ps with
  | nil => exact h1
  | cons p ps' =>
    obtain ⟨i, t'⟩ := p
    have hshape : assembleWith f t ((i, t') :: ps')
        = t ++ (opener ++ f i ++ closer ++ assembleWith f t' ps') := by
      rw [assembleWith]
      simp [List.append_assoc]
    rw [hshape]
    exact hasEarlyCloser_append t _ h1 h2

/-- Shape of the substitution on a text made of separated clean
markers: every identifier gets the prefix, block structure unchanged. -/
theorem jsSub_assemble : ∀ (ps : List (List Char × List Char)) (pre t0 : List Char),
    ¬ opener <:+: (t0 ++ opener.dropLast) →
    (∀ p ∈ ps, '\n' ∉ p.1 ∧ '\n' ∈ p.2 ∧ hasEarlyCloser p.2 = false ∧
      ¬ opener <:+: (p.2 ++ opener.dropLast)) →
    jsSub pre (assembleWith id t0 ps) = assembleWith (fun i => pre ++ '/' :: i) t0 ps := by
  intro ps
  induction ps with
  | nil =>
    intro pre t0 h0 _
    simp only [assembleWith]
    apply jsSub_of_none
    apply findMatch_none_of_no_infix
    intro hin
    exact h0 (hin.trans (infix_of_pre (List.prefix_append t0 _)))
  | cons p ps' ih =>
    intro pre t0 h0 hps
    obtain ⟨i, t⟩ := p
    obtain ⟨hni, hmem, hec, hto⟩ := hps (i, t) (List.mem_cons_self _ _)
    have hps' : ∀ p ∈ ps', '\n' ∉ p.1 ∧ '\n' ∈ p.2 ∧ hasEarlyCloser p.2 = false ∧
        ¬ opener <:+: (p.2 ++ opener.dropLast) :=
      fun p hp => hps p (List.mem_cons_of_mem _ hp)
    have htail : hasEarlyCloser (assembleWith id t ps') = false :=
      hasEarlyCloser_assemble id t ps' hec hmem
    have hg : greedyCapture (i ++ closer ++ assembleWith id t ps')
        = some (i, assembleWith id t ps') :=
      greedyCapture_exact i _ hni htail
    have hf : findMatch (t0 ++ opener ++ (i ++ closer ++ assembleWith id t ps'))
        = some (t0, i, assembleWith id t ps') :=
      findMatch_skip t0 _ i _ h0 hg
    have hshape : assembleWith id t0 ((i, t) :: ps')
        = t0 ++ opener ++ (i ++ closer ++ assembleWith id t ps') := by
      rw [assembleWith]
      simp [List.append_assoc]
    have hshape2 : assembleWith (fun j => pre ++ '/' :: j) t0 ((i, t) :: ps')
        = t0 ++ opener ++ (pre ++ '/' :: i) ++ closer
            ++ assembleWith (fun j => pre ++ '/' :: j) t ps' := by
      rw [assembleWith]
    rw [hshape]
    rw [jsSub_of_some pre _ t0 i _ hf]
    rw [ih pre t hto hps']
    rw [hshape2]
    simp [List.append_assoc]

/-- A missing prefix argument aborts the substitution with the index
error as soon as the text has any match. -/
theorem jsSubE_error (argv : List (List Char)) (s : List Char)
    (hargv : argv[2]? = none) (t : List Char × List Char × List Char)
    (hf : findMatch s = some t) : jsSubE argv s = Except.error () := by
  obtain ⟨b, cap, rem⟩ := t
  cases s with
  | nil =>
    rw [show findMatch ([] : List Char) = none from rfl] at hf
    exact absurd hf (by simp)
  | cons c rest =>
    show jsSubFE argv (rest.length + 1) (c :: rest) = Except.error ()
    rw [jsSubFE, hf]
    have hr : replE argv cap = Except.error () := by
      rw [replE, getArg, hargv]
      rfl
    show (match replE argv cap with
      | Except.error e => Except.error e
      | Except.ok r => exCat b r (jsSubFE argv rest.length rem)) = Except.error ()
    rw [hr]

/-- The write primitive never touches offsets at or beyond the length
of the written content. -/
theorem writeAt0_frame (orig new : List Char) (i : Nat) (hi : new.length ≤ i) :
    (writeAt0 orig new)[i]? = orig[i]? := by
  rw [writeAt0]
  rw [List.getElem?_append_right hi]
  rw [List.getElem?_drop]
  congr 1
  omega

/-- Because the substitution never shrinks its input, the seek-and-write
step overwrites the whole file: the resulting contents are exactly the
transformed text, with no residual original bytes. -/
theorem runProgram_eq (pre file : List Char) : runProgram pre file = jsSub pre file := by
  rw [runProgram, writeAt0, List.drop_eq_nil_of_le (jsSub_ge pre file), List.append_nil]

/-- Claim C1 counterexample: the input `_$jscoverage['x] _$jscoverage['foo']`
contains exactly one occurrence of the marker `_$jscoverage['foo']`, yet
rewriting with prefix `bar` does not turn that occurrence into
`_$jscoverage['bar/foo']` with all other bytes unchanged: the greedy
match anchors at the earlier bare opener, so the insertion lands there
and the `foo` marker survives un-namespaced. -/
theorem claim_C1_counterexample :
    countOccur fooMarker cexInput = 1 ∧
    jsSub barPre cexInput
      = opener ++ barPre ++ '/' :: (['x', ']', ' '] ++ opener ++ fooId ++ closer) ∧
    jsSub barPre cexInput
      ≠ opener ++ ['x', ']', ' '] ++ opener ++ (barPre ++ '/' :: fooId) ++ closer := by
  refine ⟨by decide, by decide, by decide⟩

/-- Claim C1 (amended): for every input string that contains the marker
`_$jscoverage['foo']` and contains no other occurrence of the opening
literal `_$jscoverage['` (neither before the marker, including
straddling positions, nor after it), rewriting with prefix `bar` turns
that occurrence into `_$jscoverage['bar/foo']` and leaves every other
byte of the input unchanged. -/
theorem claim_C1 (a b : List Char)
    (h0 : ¬ opener <:+: (a ++ opener.dropLast))
    (hb : ¬ opener <:+: (fooId ++ closer ++ b)) :
    jsSub barPre (a ++ opener ++ fooId ++ closer ++ b)
      = a ++ opener ++ (barPre ++ '/' :: fooId) ++ closer ++ b := by
  have hcap := greedyCapture_complete fooId b (by decide)
  cases hg : greedyCapture (fooId ++ closer ++ b) with
  | none =>
    rw [hg] at hcap
    exact absurd hcap (by simp)
  | some p =>
    obtain ⟨cap, rem⟩ := p
    have h1 : a ++ opener ++ fooId ++ closer ++ b = a ++ opener ++ (fooId ++ closer ++ b) := by
      simp [List.append_assoc]
    rw [h1, jsSub_insert barPre a _ cap rem h0 hb hg]
    simp [List.append_assoc]

/-- Claim C1 witness at concrete input `_$jscoverage['foo']`. -/
theorem claim_C1_witness :
    (¬ opener <:+: (([] : List Char) ++ opener.dropLast)) ∧
    (¬ opener <:+: (fooId ++ closer ++ ([] : List Char))) ∧
    jsSub barPre ([] ++ opener ++ fooId ++ closer ++ [])
      = [] ++ opener ++ (barPre ++ '/' :: fooId) ++ closer ++ [] :=
  ⟨by decide, by decide, claim_C1 [] [] (by decide) (by decide)⟩

/-- Claim C2: on the input `_$jscoverage['cassandra.js'][21] = 0;` with
prefix `db` the rewrite produces exactly
`_$jscoverage['db/cassandra.js'][21] = 0;`. -/
theorem claim_C2 :
    jsSub "db".toList (opener ++ "cassandra.js".toList ++ closer ++ "[21] = 0;".toList)
      = opener ++ "db/cassandra.js".toList ++ closer ++ "[21] = 0;".toList := by
  decide

/-- Claim C3 counterexample: the input `_$jscoverage['a'] _$jscoverage['b']`
contains two non-overlapping markers, but the output contains only one
namespaced marker, because the greedy capture swallows both markers in
a single match; the second marker is left un-namespaced. -/
theorem claim_C3_counterexample :
    countOccur (opener ++ ['a'] ++ closer) twoMarkers = 1 ∧
    countOccur (opener ++ ['b'] ++ closer) twoMarkers = 1 ∧
    jsSub ['p'] twoMarkers
      = opener ++ ['p', '/', 'a'] ++ closer ++ [' '] ++ opener ++ ['b'] ++ closer ∧
    countOccur (opener ++ ['p', '/']) (jsSub ['p'] twoMarkers) = 1 := by
  refine ⟨by decide, by decide, by decide, by decide⟩

/-- Claim C3 (amended): for inputs assembled from N markers whose
identifiers are newline-free, where the opening literal occurs nowhere
in the surrounding text blocks (including straddling positions) and
every block that follows a marker contains a newline before any
quote-bracket pair, the rewrite namespaces exactly the N markers, in
their original order and position, and passes all other content through
unchanged. -/
theorem claim_C3 (pre t0 : List Char) (ps : List (List Char × List Char))
    (h0 : ¬ opener <:+: (t0 ++ opener.dropLast))
    (hps : ∀ p ∈ ps, '\n' ∉ p.1 ∧ '\n' ∈ p.2 ∧ hasEarlyCloser p.2 = false ∧
      ¬ opener <:+: (p.2 ++ opener.dropLast)) :
    jsSub pre (assembleWith id t0 ps) = assembleWith (fun i => pre ++ '/' :: i) t0 ps :=
  jsSub_assemble ps pre t0 h0 hps

/-- Claim C3 witness at a concrete two-marker, newline-separated input. -/
theorem claim_C3_witness :
    (¬ opener <:+: (([' '] : List Char) ++ opener.dropLast)) ∧
    (∀ p ∈ ([(['a'], ['\n']), (['b'], ['\n'])] : List (List Char × List Char)),
      '\n' ∉ p.1 ∧ '\n' ∈ p.2 ∧ hasEarlyCloser p.2 = false ∧
      ¬ opener <:+: (p.2 ++ opener.dropLast)) ∧
    jsSub ['p'] (assembleWith id [' '] [(['a'], ['\n']), (['b'], ['\n'])])
      = assembleWith (fun i => ['p'] ++ '/' :: i) [' '] [(['a'], ['\n']), (['b'], ['\n'])] :=
  ⟨by decide, by decide,
    claim_C3 ['p'] [' '] [(['a'], ['\n']), (['b'], ['\n'])] (by decide) (by decide)⟩

/-- Claim C4: on the input `_$jscoverage['a'] _$jscoverage['b']` the
scanner produces a single match spanning from the first opener to the
last quote-bracket pair of the line; the captured identifier itself
contains quote characters, and the two markers are rewritten as one. -/
theorem claim_C4 :
    findMatch twoMarkers = some ([], ['a'] ++ closer ++ [' '] ++ opener ++ ['b'], []) ∧
    q ∈ ['a'] ++ closer ++ [' '] ++ opener ++ ['b'] ∧
    jsSub ['p'] twoMarkers
      = opener ++ ['p', '/'] ++ (['a'] ++ closer ++ [' '] ++ opener ++ ['b']) ++ closer := by
  refine ⟨by decide, by decide, by decide⟩

/-- Claim C5: an input with zero marker occurrences is returned
unchanged by the rewrite, for every prefix; matching nothing is a
successful outcome, not an error. -/
theorem claim_C5 (pre s : List Char)
    (h : ¬ ∃ a i b : List Char, '\n' ∉ i ∧ s = a ++ opener ++ i ++ closer ++ b) :
    jsSub pre s = s := by
  apply jsSub_of_none
  cases hf : findMatch s with
  | none => rfl
  | some t =>
    exfalso
    obtain ⟨b0, cap, rem⟩ := t
    obtain ⟨hd, hnl⟩ := findMatch_sound s b0 cap rem hf
    exact h ⟨b0, cap, rem, hnl, hd⟩

/-- Claim C5 witness at the marker-free input `hello world`. -/
theorem claim_C5_witness : jsSub ['x'] "hello world".toList = "hello world".toList :=
  claim_C5 ['x'] "hello world".toList (fun h => by
    obtain ⟨a, i, b, hni, he⟩ := h
    have hs := findMatch_complete a i b hni
    rw [← he] at hs
    rw [show findMatch "hello world".toList = none from by decide] at hs
    simp at hs)

/-- Claim C6 counterexample: the input `_$jscoverage['x] _$jscoverage['foo']`
contains the marker `_$jscoverage['foo']`, but applying the transform
twice with prefix `bar` never produces the double-namespaced marker
`_$jscoverage['bar/bar/foo']`; the doubled prefix lands at the earlier
bare opener instead. -/
theorem claim_C6_counterexample :
    countOccur fooMarker cexInput = 1 ∧
    jsSub barPre (jsSub barPre cexInput)
      = opener ++ barPre ++ '/' :: (barPre ++ '/' :: (['x', ']', ' '] ++ opener ++ fooId ++ closer)) ∧
    countOccur (opener ++ barPre ++ ('/' :: barPre) ++ ('/' :: fooId) ++ closer)
        (jsSub barPre (jsSub barPre cexInput)) = 0 := by
  refine ⟨by decide, by decide, by decide⟩

/-- Claim C6 (amended): the rewrite is not idempotent.  For every input
containing the marker `_$jscoverage['foo']` and no other occurrence of
the opening literal, and every newline-free prefix, applying the
transform twice yields the double-namespaced marker
`_$jscoverage['PREFIX/PREFIX/foo']`, not the once-namespaced form. -/
theorem claim_C6 (pre a b : List Char) (hp : '\n' ∉ pre)
    (h0 : ¬ opener <:+: (a ++ opener.dropLast))
    (hb : ¬ opener <:+: (fooId ++ closer ++ b)) :
    jsSub pre (jsSub pre (a ++ opener ++ fooId ++ closer ++ b))
      = a ++ opener ++ (pre ++ ('/' :: pre) ++ ('/' :: fooId)) ++ closer ++ b := by
  have hcap1 := greedyCapture_complete fooId b (by decide)
  cases hg1 : greedyCapture (fooId ++ closer ++ b) with
  | none =>
    rw [hg1] at hcap1
    exact absurd hcap1 (by simp)
  | some p1 =>
    obtain ⟨cap1, rem1⟩ := p1
    obtain ⟨hd1, _⟩ := greedyCapture_sound _ cap1 rem1 hg1
    have hrem1 : findMatch rem1 = none := by
      apply findMatch_none_of_no_infix
      intro hin
      exact hb (hin.trans (infix_of_suf ⟨cap1 ++ closer, hd1.symm⟩))
    have hs1 : a ++ opener ++ fooId ++ closer ++ b = a ++ opener ++ (fooId ++ closer ++ b) := by
      simp [List.append_assoc]
    rw [hs1, jsSub_insert_of_rem pre a _ cap1 rem1 h0 hg1 hrem1]
    have hni2 : '\n' ∉ pre ++ '/' :: fooId := by
      intro hm
      rcases List.mem_append.mp hm with hm1 | hm2
      · exact hp hm1
      · rcases List.mem_cons.mp hm2 with hm3 | hm4
        · exact absurd hm3 (by decide)
        · exact absurd hm4 (by decide)
    have hshape : pre ++ '/' :: fooId ++ closer ++ b = pre ++ '/' :: (fooId ++ closer ++ b) := by
      simp [List.append_assoc]
    have hcap2 := greedyCapture_complete (pre ++ '/' :: fooId) b hni2
    rw [hshape] at hcap2
    cases hg2 : greedyCapture (pre ++ '/' :: (fooId ++ closer ++ b)) with
    | none =>
      rw [hg2] at hcap2
      exact absurd hcap2 (by simp)
    | some p2 =>
      obtain ⟨cap2, rem2⟩ := p2
      obtain ⟨hd2, _⟩ := greedyCapture_sound _ cap2 rem2 hg2
      have hg2' : greedyCapture (pre ++ '/' :: fooId ++ closer ++ b) = some (cap2, rem2) := by
        rw [hshape]
        exact hg2
      have hmax := greedyCapture_ge (pre ++ '/' :: fooId) b cap2 rem2 hni2 hg2'
      have hlen : rem2.length ≤ b.length := by
        have he1 : (pre ++ '/' :: (fooId ++ closer ++ b)).length
            = cap2.length + 2 + rem2.length := by
          rw [hd2]
          simp [closer]
          omega
        have he2 : (pre ++ '/' :: (fooId ++ closer ++ b)).length
            = (pre ++ '/' :: fooId).length + 2 + b.length := by
          simp [closer]
          omega
        omega
      have hsuf1 : rem2 <:+ pre ++ '/' :: (fooId ++ closer ++ b) := ⟨cap2 ++ closer, hd2.symm⟩
      have hsuf2 : b <:+ pre ++ '/' :: (fooId ++ closer ++ b) :=
        ⟨pre ++ '/' :: (fooId ++ closer), by simp [List.append_assoc]⟩
      have hsufb : rem2 <:+ b := List.suffix_of_suffix_length_le hsuf1 hsuf2 hlen
      have hrem2 : findMatch rem2 = none := by
        apply findMatch_none_of_no_infix
        intro hin
        have hbsuf : b <:+ fooId ++ closer ++ b := ⟨fooId ++ closer, rfl⟩
        exact hb ((hin.trans (infix_of_suf hsufb)).trans (infix_of_suf hbsuf))
      have hs2 : a ++ opener ++ pre ++ '/' :: (fooId ++ closer ++ b)
          = a ++ opener ++ (pre ++ '/' :: (fooId ++ closer ++ b)) := by
        simp [List.append_assoc]
      rw [hs2, jsSub_insert_of_rem pre a _ cap2 rem2 h0 hg2 hrem2]
      simp [List.append_assoc]

/-- Claim C6 witness at concrete input `_$jscoverage['foo']` with
prefix `p`. -/
theorem claim_C6_witness :
    ('\n' ∉ (['p'] : List Char)) ∧
    (¬ opener <:+: (([] : List Char) ++ opener.dropLast)) ∧
    (¬ opener <:+: (fooId ++ closer ++ ([] : List Char))) ∧
    jsSub ['p'] (jsSub ['p'] ([] ++ opener ++ fooId ++ closer ++ []))
      = [] ++ opener ++ (['p'] ++ ('/' :: ['p']) ++ ('/' :: fooId)) ++ closer ++ [] :=
  ⟨by decide, by decide, by decide, claim_C6 ['p'] [] [] (by decide) (by decide) (by decide)⟩

/-- Claim C7: the final write repositions to the start of the file and
writes the transformed string without truncating; modelling the file as
a character sequence, every byte of the original content at an offset
at or beyond the length of the transformed string is unchanged by the
write. -/
theorem claim_C7 (pre file : List Char) (i : Nat) (hi : (jsSub pre file).length ≤ i) :
    (writeAt0 file (jsSub pre file))[i]? = file[i]? :=
  writeAt0_frame file (jsSub pre file) i hi

/-- Claim C7 witness at a concrete marker-free file and offset. -/
theorem claim_C7_witness :
    (jsSub ['x'] "ab".toList).length ≤ 5 ∧
    (writeAt0 "ab".toList (jsSub ['x'] "ab".toList))[5]? = "ab".toList[5]? :=
  ⟨by decide, claim_C7 ['x'] "ab".toList 5 (by decide)⟩

/-- Claim C8: after a run, the file holds no byte at any offset at or
beyond the length of the transformed content, hence no residual
original bytes; this holds because the transformed output is never
shorter than the input, so the non-truncating write still covers the
whole file. -/
theorem claim_C8 (pre file : List Char) (i : Nat) (hi : (jsSub pre file).length ≤ i) :
    (runProgram pre file)[i]? = none := by
  rw [runProgram_eq]
  exact List.getElem?_eq_none hi

/-- Claim C8 witness at a concrete marker-free file and offset. -/
theorem claim_C8_witness :
    (jsSub ['x'] "ab".toList).length ≤ 5 ∧ (runProgram ['x'] "ab".toList)[5]? = none :=
  ⟨by decide, claim_C8 ['x'] "ab".toList 5 (by decide)⟩

/-- Claim C9 counterexample: with the namespace-prefix argument absent,
a run on the readable, marker-free file `hello world` succeeds and
rewrites the contents unchanged, because the callback that reads the
argument is never invoked; the run does not fail for every readable
input file. -/
theorem claim_C9_counterexample :
    argvShort[2]? = none ∧
    run argvShort "hello world".toList = Except.ok "hello world".toList :=
  ⟨rfl, rfl⟩

/-- Claim C9 (amended): if the namespace-prefix argument is absent and
the file contains at least one marker, the run fails with the index
error, which propagates and terminates the run before any write. -/
theorem claim_C9 (argv : List (List Char)) (a i b : List Char)
    (hargv : argv[2]? = none) (hni : '\n' ∉ i) :
    run argv (a ++ opener ++ i ++ closer ++ b) = Except.error () := by
  have hsome := findMatch_complete a i b hni
  cases hf : findMatch (a ++ opener ++ i ++ closer ++ b) with
  | none =>
    rw [hf] at hsome
    exact absurd hsome (by simp)
  | some t =>
    have hje : jsSubE argv (a ++ opener ++ i ++ closer ++ b) = Except.error () :=
      jsSubE_error argv _ hargv t hf
    rw [run, hje]

/-- Claim C9 witness at concrete argument vector and one-marker file. -/
theorem claim_C9_witness :
    argvShort[2]? = none ∧ ('\n' ∉ (['f', 'o', 'o'] : List Char)) ∧
    run argvShort ([] ++ opener ++ ['f', 'o', 'o'] ++ closer ++ []) = Except.error () :=
  ⟨rfl, by decide, claim_C9 argvShort [] ['f', 'o', 'o'] [] rfl (by decide)⟩

/-- Claim C10: for every input string and every prefix, including the
empty prefix, the transformed string is at least as long as the input,
so a single invocation can never produce output shorter than the
content it read. -/
theorem claim_C10 (pre s : List Char) : s.length ≤ (jsSub pre s).length :=
  jsSub_ge pre s

end Replace
